import Mathlib

/-!
Shallow embedding of the `hamdb-rs` crate (a client library for the HamDB
amateur-radio callsign lookup service) and proofs about it.

Strings are modelled as `List Char` (Rust `&str` / `String` hold Unicode
scalar values; `.chars()` iterates them in order).  Rust `f64` coordinate
values are modelled as `ℚ` with the string-to-float parser left abstract,
since all verified properties of the coordinate helpers are independent of
the numeric parser's semantics.  Fallible Rust functions returning
`Result<T, E>` become Lean functions returning `Except E T`.
-/

deriving instance DecidableEq for Except

namespace Hamdb

/-! ### Character primitives (Rust `char` methods used by `src/parsing.rs`) -/

/-- Rust `char::is_whitespace`: the Unicode `White_Space` property.  The
listed scalar values are exactly the characters with that property. -/
def isRustWhitespace (c : Char) : Bool :=
  let n := c.toNat
  (9 ≤ n && n ≤ 13) || n == 32 || n == 133 || n == 160 || n == 0x1680 ||
  (0x2000 ≤ n && n ≤ 0x200A) || n == 0x2028 || n == 0x2029 ||
  n == 0x202F || n == 0x205F || n == 0x3000

/-- Rust `str::trim`: removes `White_Space` characters from both ends. -/
def rustTrim (cs : List Char) : List Char :=
  ((cs.dropWhile isRustWhitespace).reverse.dropWhile isRustWhitespace).reverse

/-- Rust `char::to_ascii_uppercase`: maps `a`..`z` to `A`..`Z`, every
other character is returned unchanged. -/
def toAsciiUppercase (c : Char) : Char :=
  if 97 ≤ c.toNat ∧ c.toNat ≤ 122 then Char.ofNat (c.toNat - 32) else c

/-- Rust `char::is_ascii_alphanumeric`: `0`..`9`, `A`..`Z` or `a`..`z`. -/
def isAsciiAlphanumeric (c : Char) : Bool :=
  let n := c.toNat
  (48 ≤ n && n ≤ 57) || (65 ≤ n && n ≤ 90) || (97 ≤ n && n ≤ 122)

/-- Rust `char::len_utf8`: number of bytes of the character's UTF-8
encoding. -/
def lenUtf8 (c : Char) : Nat :=
  if c.toNat < 0x80 then 1
  else if c.toNat < 0x800 then 2
  else if c.toNat < 0x10000 then 3
  else 4

/-- Byte offset of the `k`-th character of `cs` inside the UTF-8 encoding
of `cs` (the sum of the UTF-8 lengths of the first `k` characters). -/
def byteOffset (cs : List Char) (k : Nat) : Nat :=
  ((cs.take k).map lenUtf8).sum

/-- Offset `b` is a character boundary of the UTF-8 encoding of `cs`: it is the
byte offset of some character position (Rust `str::is_char_boundary`,
which is what indexing `&s[b..]` requires to not panic). -/
def IsCharBoundary (cs : List Char) (b : Nat) : Prop :=
  ∃ k, k ≤ cs.length ∧ byteOffset cs k = b

/-! ### `src/parsing.rs` -/

/-- The `CallsignParseError` enum from `src/parsing.rs`.  The `input` fields hold
the original (untrimmed) input string, as in the Rust source. -/
inductive CallsignParseError where
  | Empty : CallsignParseError
  | InvalidChar (input : List Char) (ch : Char) (index : Nat) : CallsignParseError
  | InvalidLength (input : List Char) (len : Nat) : CallsignParseError
deriving DecidableEq

/-- The `ParsedCallsign` struct from `src/parsing.rs`. -/
structure ParsedCallsign where
  base : List Char
  suffix : Option (List Char)
deriving DecidableEq

/-- The inner loop of `parse_callsign` over the remainder after the first
`/`: `i` is the index of the `/` in the trimmed string, `j` the enumerate
index within the remainder, `acc` the accumulated uppercased suffix. -/
def scanSuffix (input : List Char) (i : Nat) :
    List Char → Nat → List Char → Except CallsignParseError (List Char)
  | [], _, acc => .ok acc
  | c :: rest, j, acc =>
    let up := toAsciiUppercase c
    if isAsciiAlphanumeric up then scanSuffix input i rest (j + 1) (acc ++ [up])
    else .error (.InvalidChar input c (i + j + 1))

/-- The main loop of `parse_callsign` over the trimmed string: `i` is the
enumerate index, `base` the accumulated uppercased base.  On the first `/`
it scans the remainder as the suffix and stops (the Rust `break`). -/
def scanBase (input : List Char) :
    List Char → Nat → List Char →
    Except CallsignParseError (List Char × Option (List Char))
  | [], _, base => .ok (base, none)
  | c :: rest, i, base =>
    if c = '/' then
      match scanSuffix input i rest 0 [] with
      | .error e => .error e
      | .ok s => .ok (base, if s.isEmpty then none else some s)
    else
      let up := toAsciiUppercase c
      if isAsciiAlphanumeric up then scanBase input rest (i + 1) (base ++ [up])
      else .error (.InvalidChar input c i)

/-- The function `parse_callsign` from `src/parsing.rs`: trim, reject empty input, scan
base and optional suffix, reject an empty base, then enforce the base
length bounds `MIN_LEN = 3`, `MAX_LEN = 10` (the accumulated base holds
only ASCII characters, so its Rust byte length equals its character
count). -/
def parse_callsign (input : List Char) :
    Except CallsignParseError ParsedCallsign :=
  let trimmed := rustTrim input
  if trimmed.isEmpty then .error .Empty
  else
    match scanBase input trimmed 0 [] with
    | .error e => .error e
    | .ok (base, suffix) =>
      if base.isEmpty then .error .Empty
      else if 3 ≤ base.length ∧ base.length ≤ 10 then .ok ⟨base, suffix⟩
      else .error (.InvalidLength input base.length)

/-! ### `src/deserialize.rs`

The coordinate helpers.  `f64` values are modelled as `ℚ` and the Rust
`str::parse::<f64>` call is an abstract parameter `parseF64` (returning
`none` on parse failure), because every property proved below holds for
any parser.  `empty_as_none` and `string_as_mdy` are not needed by the
claims and are omitted. -/

/-- The helper `lat_lon_string_as_f64` from `src/deserialize.rs`: trim the raw
string; empty gives `none`; otherwise parse it and keep the value only
when it lies in the closed interval `[min, max]` (Rust
`(min..=max).contains(&v)`); a parse failure or out-of-range value gives
`none`, never an error. -/
def lat_lon_string_as_f64 (parseF64 : List Char → Option ℚ)
    (s : List Char) (min max : ℚ) : Option ℚ :=
  let t := rustTrim s
  if t.isEmpty then none
  else
    match parseF64 t with
    | some v => if min ≤ v ∧ v ≤ max then some v else none
    | none => none

/-- The helper `latitude_as_f64` from `src/deserialize.rs`: interval `[-90, 90]`. -/
def latitude_as_f64 (parseF64 : List Char → Option ℚ) (s : List Char) :
    Option ℚ :=
  lat_lon_string_as_f64 parseF64 s (-90) 90

/-- The helper `longitude_as_f64` from `src/deserialize.rs`: interval
`[-180, 180]`. -/
def longitude_as_f64 (parseF64 : List Char → Option ℚ) (s : List Char) :
    Option ℚ :=
  lat_lon_string_as_f64 parseF64 s (-180) 180

/-! ### `src/v1.rs` -/

/-- The `Status` enum of `src/v1.rs` (`#[non_exhaustive]`, but with only
these two variants in the source). -/
inductive Status where
  | Ok : Status
  | NotFound : Status
deriving DecidableEq

/-- Decode failure inside the response body (surfaced through
`reqwest::Error::is_decode` as `Error::BodyParsing`). -/
inductive JsonDecodeError where
  | unknownVariant (got : List Char) : JsonDecodeError
deriving DecidableEq

/-- The serde-derived deserializer of `Status`.  With
`#[serde(rename_all = "SCREAMING_SNAKE_CASE")]` the variant `Ok` matches
the JSON string `"OK"` and `NotFound` matches `"NOT_FOUND"`; the derive
has no fallback variant (`#[non_exhaustive]` does not affect serde), so
any other string is an unknown-variant decode error. -/
def Status.deserializeField (s : List Char) : Except JsonDecodeError Status :=
  if s = "OK".toList then .ok .Ok
  else if s = "NOT_FOUND".toList then .ok .NotFound
  else .error (.unknownVariant s)

/-- The `CallsignLookup` struct from `src/v1.rs`, after field coercion.  Field types
are modelled (`List Char` for strings, `ℚ` for `f64`, a month/day/year
triple for `time::Date`); the Rust field `class` is `class_` because
`class` is a Lean keyword, `fname` and `mi` use their Rust-side names
`first_name` and `middle_initial`. -/
structure CallsignLookup where
  call : List Char
  class_ : List Char
  expires : Option (Nat × Nat × Int)
  status : Option (List Char)
  grid : List Char
  lat : Option ℚ
  lon : Option ℚ
  first_name : Option (List Char)
  middle_initial : Option (List Char)
  name : List Char
  suffix : Option (List Char)
  addr1 : Option (List Char)
  addr2 : Option (List Char)
  state : Option (List Char)
  zip : Option (List Char)
  country : List Char
deriving DecidableEq

/-- The `Messages` struct from `src/v1.rs`. -/
structure Messages where
  status : Status
deriving DecidableEq

/-- The `HamDb` struct from `src/v1.rs`. -/
structure HamDb where
  callsign : CallsignLookup
  messages : Messages
deriving DecidableEq

/-- The `ApiResponse` struct from `src/v1.rs`. -/
structure ApiResponse where
  hamdb : HamDb
deriving DecidableEq

/-- A response body whose envelope is otherwise well-formed: the
`messages.status` field is an arbitrary JSON string (`statusText`) still
to be decoded, and the `callsign` payload object is an arbitrary
already-coerced record.  This is the input to the decoding step the
claims examine. -/
structure RawEnvelope where
  statusText : List Char
  callsign : CallsignLookup
deriving DecidableEq

/-- Decoding of the response body into `ApiResponse` (the
`res.json::<ApiResponse>()` step), for an envelope that is well-formed
except possibly in its `status` string: the only way it can fail is the
`Status` deserializer rejecting the status string. -/
def decodeApiResponse (raw : RawEnvelope) : Except JsonDecodeError ApiResponse :=
  match Status.deserializeField raw.statusText with
  | .error e => .error e
  | .ok st => .ok ⟨⟨raw.callsign, ⟨st⟩⟩⟩

/-- The crate `Error` enum from `src/error.rs`.  The `reqwest::Error`
payloads of `Http`, `BodyParsing` and `Timeout` carry no information used
by the code, so they are dropped. -/
inductive Error where
  | CallsignParsing (e : CallsignParseError) : Error
  | Http : Error
  | BodyParsing : Error
  | Timeout : Error
  | NotFound (callsign : List Char) : Error
deriving DecidableEq

/-- The method `Client::lookup` from `src/v1.rs`, with the HTTP round trip replaced
by the received response body `response` (transport failures, which yield
`Error::Http` / `Error::Timeout` before any decoding, are outside this
model): parse the callsign (`?` propagates the parse error via
`From<CallsignParseError>`), decode the body (a decode failure converts
to `Error::BodyParsing` via `From<reqwest::Error>` since
`is_decode` holds), return `Error::NotFound(parsed.base)` when the
decoded status is `NotFound`, otherwise the decoded payload. -/
def lookup (input : List Char) (response : RawEnvelope) :
    Except Error CallsignLookup :=
  match parse_callsign input with
  | .error e => .error (.CallsignParsing e)
  | .ok parsed =>
    match decodeApiResponse response with
    | .error _ => .error .BodyParsing
    | .ok value =>
      if value.hamdb.messages.status = Status.NotFound then
        .error (.NotFound parsed.base)
      else .ok value.hamdb.callsign

/-! ### Helper predicates and character-level lemmas -/

/-- A character that the parser's scan accepts: its ASCII uppercasing is
ASCII alphanumeric.  This is the guard of both loops of
`parse_callsign`. -/
def validChar (c : Char) : Bool :=
  isAsciiAlphanumeric (toAsciiUppercase c)

/-- An uppercase ASCII alphanumeric character: a digit `0`..`9` or an
uppercase letter `A`..`Z`. -/
def isUpperAlnum (c : Char) : Bool :=
  let n := c.toNat
  (48 ≤ n && n ≤ 57) || (65 ≤ n && n ≤ 90)

theorem toNat_ofNat_valid (n : Nat) (h : n < 0xd800) :
    (Char.ofNat n).toNat = n := by
  simp [Char.ofNat, Nat.isValidChar, Char.toNat, h, Char.ofNatAux,
    UInt32.toNat, BitVec.toNat_ofNatLt]

theorem toNat_toAsciiUppercase (c : Char) :
    (toAsciiUppercase c).toNat =
      if 97 ≤ c.toNat ∧ c.toNat ≤ 122 then c.toNat - 32 else c.toNat := by
  unfold toAsciiUppercase
  split
  · rename_i h
    exact toNat_ofNat_valid _ (by omega)
  · rfl

theorem isAsciiAlphanumeric_iff (c : Char) :
    isAsciiAlphanumeric c = true ↔
      (48 ≤ c.toNat ∧ c.toNat ≤ 57) ∨ (65 ≤ c.toNat ∧ c.toNat ≤ 90) ∨
      (97 ≤ c.toNat ∧ c.toNat ≤ 122) := by
  simp [isAsciiAlphanumeric]
  tauto

theorem isUpperAlnum_iff (c : Char) :
    isUpperAlnum c = true ↔
      (48 ≤ c.toNat ∧ c.toNat ≤ 57) ∨ (65 ≤ c.toNat ∧ c.toNat ≤ 90) := by
  simp [isUpperAlnum]

theorem isRustWhitespace_eq_false_iff (c : Char) :
    isRustWhitespace c = false ↔
      ¬((9 ≤ c.toNat ∧ c.toNat ≤ 13) ∨ c.toNat = 32 ∨ c.toNat = 133 ∨
        c.toNat = 160 ∨ c.toNat = 0x1680 ∨
        (0x2000 ≤ c.toNat ∧ c.toNat ≤ 0x200A) ∨ c.toNat = 0x2028 ∨
        c.toNat = 0x2029 ∨ c.toNat = 0x202F ∨ c.toNat = 0x205F ∨
        c.toNat = 0x3000) := by
  simp [isRustWhitespace]
  tauto

/-- A character the scan accepts lies in one of the three ASCII
alphanumeric ranges. -/
theorem validChar_ranges (c : Char) (h : validChar c = true) :
    (48 ≤ c.toNat ∧ c.toNat ≤ 57) ∨ (65 ≤ c.toNat ∧ c.toNat ≤ 90) ∨
      (97 ≤ c.toNat ∧ c.toNat ≤ 122) := by
  unfold validChar at h
  rw [isAsciiAlphanumeric_iff, toNat_toAsciiUppercase] at h
  by_cases hl : 97 ≤ c.toNat ∧ c.toNat ≤ 122
  · exact Or.inr (Or.inr hl)
  · simpa [hl] using h

theorem validChar_upper (c : Char) (h : validChar c = true) :
    isUpperAlnum (toAsciiUppercase c) = true := by
  unfold validChar at h
  rw [isAsciiAlphanumeric_iff, toNat_toAsciiUppercase] at h
  rw [isUpperAlnum_iff, toNat_toAsciiUppercase]
  by_cases hl : 97 ≤ c.toNat ∧ c.toNat ≤ 122 <;> simp [hl] at h ⊢ <;> omega

theorem validChar_of_alnum (c : Char) (h : isAsciiAlphanumeric c = true) :
    validChar c = true := by
  rw [isAsciiAlphanumeric_iff] at h
  unfold validChar
  rw [isAsciiAlphanumeric_iff, toNat_toAsciiUppercase]
  by_cases hl : 97 ≤ c.toNat ∧ c.toNat ≤ 122 <;> simp [hl] <;> omega

theorem validChar_not_ws (c : Char) (h : validChar c = true) :
    isRustWhitespace c = false := by
  have := validChar_ranges c h
  rw [isRustWhitespace_eq_false_iff]
  omega

theorem validChar_ne_slash (c : Char) (h : validChar c = true) : c ≠ '/' := by
  intro he
  subst he
  simp [validChar, toAsciiUppercase, isAsciiAlphanumeric] at h

theorem validChar_lenUtf8 (c : Char) (h : validChar c = true) :
    lenUtf8 c = 1 := by
  have := validChar_ranges c h
  unfold lenUtf8
  have : c.toNat < 0x80 := by omega
  simp [this]

/-! ### Lemmas about `rustTrim` and the scan loops -/

theorem dropWhile_eq_self_of (p : Char → Bool) (l : List Char)
    (h : ∀ c ∈ l, p c = false) : l.dropWhile p = l := by
  cases l with
  | nil => rfl
  | cons c t => simp [List.dropWhile, h c (by simp)]

/-- Trimming leaves a string with no whitespace characters unchanged. -/
theorem rustTrim_eq_self (cs : List Char)
    (h : ∀ c ∈ cs, isRustWhitespace c = false) : rustTrim cs = cs := by
  unfold rustTrim
  rw [dropWhile_eq_self_of _ _ h, dropWhile_eq_self_of, List.reverse_reverse]
  intro c hc
  exact h c (by simpa using hc)

/-- The suffix loop succeeds on an all-valid remainder, appending the
uppercased characters to the accumulator. -/
theorem scanSuffix_ok_of_valid (input : List Char) (i : Nat)
    (cs : List Char) (j : Nat) (acc : List Char)
    (h : ∀ c ∈ cs, validChar c = true) :
    scanSuffix input i cs j acc = .ok (acc ++ cs.map toAsciiUppercase) := by
  induction cs generalizing j acc with
  | nil => simp [scanSuffix]
  | cons c t ih =>
    have hc : validChar c = true := h c (by simp)
    have ht : ∀ b ∈ t, validChar b = true := fun b hb => h b (by simp [hb])
    simp only [scanSuffix, validChar] at hc ⊢
    rw [if_pos hc, ih _ _ ht]
    simp

/-- The suffix loop fails at the first invalid character of the
remainder, reporting index `i + j + (length of the valid prefix) + 1`. -/
theorem scanSuffix_error_at (input : List Char) (i : Nat)
    (pre : List Char) (c : Char) (rest : List Char) (j : Nat)
    (acc : List Char) (hpre : ∀ b ∈ pre, validChar b = true)
    (hc : validChar c = false) :
    scanSuffix input i (pre ++ c :: rest) j acc =
      .error (.InvalidChar input c (i + j + pre.length + 1)) := by
  induction pre generalizing j acc with
  | nil =>
    simp only [List.nil_append, scanSuffix, validChar] at hc ⊢
    rw [if_neg (by simp [hc])]
    simp
  | cons b t ih =>
    have hb : validChar b = true := hpre b (by simp)
    have ht : ∀ x ∈ t, validChar x = true := fun x hx => hpre x (by simp [hx])
    simp only [List.cons_append, scanSuffix, validChar] at hb ⊢
    rw [if_pos hb, List.append_eq, ih _ _ ht]
    congr 2
    simp
    omega

/-- The base loop succeeds on an all-valid string with no `/`, appending
the uppercased characters and leaving the suffix absent. -/
theorem scanBase_ok_of_valid (input : List Char) (cs : List Char) (i : Nat)
    (base : List Char) (h : ∀ c ∈ cs, validChar c = true) :
    scanBase input cs i base = .ok (base ++ cs.map toAsciiUppercase, none) := by
  induction cs generalizing i base with
  | nil => simp [scanBase]
  | cons c t ih =>
    have hc : validChar c = true := h c (by simp)
    have hne : c ≠ '/' := validChar_ne_slash c hc
    have ht : ∀ b ∈ t, validChar b = true := fun b hb => h b (by simp [hb])
    simp only [scanBase, validChar] at hc ⊢
    rw [if_neg hne, if_pos hc, ih _ _ ht]
    simp

/-- The base loop on `pre ++ '/' :: rest` with `pre` all valid reaches
the `/` with the uppercased `pre` accumulated and hands `rest` to the
suffix loop. -/
theorem scanBase_slash (input : List Char) (pre rest : List Char)
    (i : Nat) (base : List Char)
    (hpre : ∀ b ∈ pre, validChar b = true) :
    scanBase input (pre ++ '/' :: rest) i base =
      match scanSuffix input (i + pre.length) rest 0 [] with
      | .error e => .error e
      | .ok s =>
        .ok (base ++ pre.map toAsciiUppercase,
          if s.isEmpty then none else some s) := by
  induction pre generalizing i base with
  | nil => simp [scanBase]
  | cons b t ih =>
    have hb : validChar b = true := hpre b (by simp)
    have hne : b ≠ '/' := validChar_ne_slash b hb
    have ht : ∀ x ∈ t, validChar x = true := fun x hx => hpre x (by simp [hx])
    simp only [List.cons_append, scanBase, validChar] at hb ⊢
    rw [if_neg hne, if_pos hb, List.append_eq, ih _ _ ht]
    have harith : i + 1 + t.length = i + (t.length + 1) := by omega
    simp [harith]

/-- The base loop fails at the first invalid non-`/` character,
reporting index `i + (length of the valid prefix)`. -/
theorem scanBase_error_at (input : List Char) (pre : List Char) (c : Char)
    (rest : List Char) (i : Nat) (base : List Char)
    (hpre : ∀ b ∈ pre, validChar b = true)
    (hc : validChar c = false) (hslash : c ≠ '/') :
    scanBase input (pre ++ c :: rest) i base =
      .error (.InvalidChar input c (i + pre.length)) := by
  induction pre generalizing i base with
  | nil =>
    simp only [List.nil_append, scanBase, validChar] at hc ⊢
    rw [if_neg hslash, if_neg (by simp [hc])]
    simp
  | cons b t ih =>
    have hb : validChar b = true := hpre b (by simp)
    have hne : b ≠ '/' := validChar_ne_slash b hb
    have ht : ∀ x ∈ t, validChar x = true := fun x hx => hpre x (by simp [hx])
    simp only [List.cons_append, scanBase, validChar] at hb ⊢
    rw [if_neg hne, if_pos hb, List.append_eq, ih _ _ ht]
    have harith : i + 1 + t.length = i + (b :: t).length := by
      simp
      omega
    rw [harith]

/-- Whatever the suffix loop returns successfully consists of uppercase
alphanumeric characters, provided the accumulator it starts from does. -/
theorem scanSuffix_ok_inv (input : List Char) (i : Nat) (cs : List Char)
    (j : Nat) (acc s : List Char)
    (hacc : ∀ x ∈ acc, isUpperAlnum x = true)
    (h : scanSuffix input i cs j acc = .ok s) :
    ∀ x ∈ s, isUpperAlnum x = true := by
  induction cs generalizing j acc with
  | nil =>
    simp only [scanSuffix, Except.ok.injEq] at h
    exact h ▸ hacc
  | cons c t ih =>
    simp only [scanSuffix] at h
    by_cases hv : isAsciiAlphanumeric (toAsciiUppercase c) = true
    · rw [if_pos hv] at h
      refine ih _ _ ?_ h
      intro x hx
      rcases List.mem_append.mp hx with hx | hx
      · exact hacc x hx
      · rw [List.mem_singleton.mp hx]
        exact validChar_upper c hv
    · rw [if_neg hv] at h
      cases h

/-- Whatever the base loop returns successfully: the base consists of
uppercase alphanumeric characters (provided the starting accumulator
does), and a present suffix is non-empty and consists of uppercase
alphanumeric characters. -/
theorem scanBase_ok_inv (input cs : List Char) (i : Nat)
    (base b : List Char) (sfx : Option (List Char))
    (hbase : ∀ x ∈ base, isUpperAlnum x = true)
    (h : scanBase input cs i base = .ok (b, sfx)) :
    (∀ x ∈ b, isUpperAlnum x = true) ∧
      ∀ s, sfx = some s → s ≠ [] ∧ ∀ x ∈ s, isUpperAlnum x = true := by
  induction cs generalizing i base with
  | nil =>
    simp only [scanBase, Except.ok.injEq, Prod.mk.injEq] at h
    obtain ⟨hb, hs⟩ := h
    subst hb
    subst hs
    exact ⟨hbase, by simp⟩
  | cons c t ih =>
    simp only [scanBase] at h
    by_cases hs : c = '/'
    · rw [if_pos hs] at h
      cases hsuf : scanSuffix input i t 0 [] with
      | error e =>
        rw [hsuf] at h
        cases h
      | ok s =>
        rw [hsuf] at h
        simp only [Except.ok.injEq, Prod.mk.injEq] at h
        obtain ⟨hb, hsx⟩ := h
        subst hb
        refine ⟨hbase, ?_⟩
        intro s' hs'
        rw [← hsx] at hs'
        by_cases he : s.isEmpty
        · simp [he] at hs'
        · simp [he] at hs'
          subst hs'
          exact ⟨by simpa [List.isEmpty_iff] using he,
            scanSuffix_ok_inv input i t 0 [] s (by simp) hsuf⟩
    · rw [if_neg hs] at h
      by_cases hv : isAsciiAlphanumeric (toAsciiUppercase c) = true
      · rw [if_pos hv] at h
        refine ih _ _ ?_ h
        intro x hx
        rcases List.mem_append.mp hx with hx | hx
        · exact hbase x hx
        · rw [List.mem_singleton.mp hx]
          exact validChar_upper c hv
      · rw [if_neg hv] at h
        cases h

/-! ### Claim theorems -/

/-- C3: whenever `parse_callsign` succeeds, the returned `ParsedCallsign`
satisfies: the base is non-empty, its length is between 3 and 10
inclusive, every character of the base is an uppercase ASCII
alphanumeric, and a present suffix is non-empty with every character an
uppercase ASCII alphanumeric. -/
theorem C3_parsed_callsign_invariants (s : List Char) (p : ParsedCallsign)
    (h : parse_callsign s = .ok p) :
    p.base ≠ [] ∧ 3 ≤ p.base.length ∧ p.base.length ≤ 10 ∧
      (∀ c ∈ p.base, isUpperAlnum c = true) ∧
      ∀ sfx, p.suffix = some sfx →
        sfx ≠ [] ∧ ∀ c ∈ sfx, isUpperAlnum c = true := by
  simp only [parse_callsign] at h
  by_cases ht : (rustTrim s).isEmpty
  · simp [ht] at h
  · rw [if_neg ht] at h
    cases hsb : scanBase s (rustTrim s) 0 [] with
    | error e =>
      rw [hsb] at h
      cases h
    | ok pr =>
      obtain ⟨base, sfx⟩ := pr
      rw [hsb] at h
      dsimp only at h
      by_cases hbe : base.isEmpty
      · simp [hbe] at h
      · by_cases hlen : 3 ≤ base.length ∧ base.length ≤ 10
        · rw [if_neg hbe, if_pos hlen, Except.ok.injEq] at h
          subst h
          obtain ⟨hupper, hsfx⟩ :=
            scanBase_ok_inv s (rustTrim s) 0 [] base sfx (by simp) hsb
          exact ⟨by simpa [List.isEmpty_iff] using hbe, hlen.1, hlen.2,
            hupper, hsfx⟩
        · rw [if_neg hbe, if_neg hlen] at h
          cases h

/-- C3 witness: the invariants hold at the concrete parse of
`"w1aw/ae"`. -/
theorem C3_witness :
    parse_callsign "w1aw/ae".toList =
        .ok ⟨"W1AW".toList, some "AE".toList⟩ ∧
      "W1AW".toList ≠ [] ∧ 3 ≤ "W1AW".toList.length ∧
      "W1AW".toList.length ≤ 10 ∧
      (∀ c ∈ "W1AW".toList, isUpperAlnum c = true) ∧
      ∀ sfx, some "AE".toList = some sfx →
        sfx ≠ [] ∧ ∀ c ∈ sfx, isUpperAlnum c = true := by
  have hp : parse_callsign "w1aw/ae".toList =
      .ok ⟨"W1AW".toList, some "AE".toList⟩ := by decide
  exact ⟨hp, C3_parsed_callsign_invariants "w1aw/ae".toList
    ⟨"W1AW".toList, some "AE".toList⟩ hp⟩

/-- C4: on a non-empty ASCII-alphanumeric string of length between 3 and
10 containing no `/`, `parse_callsign` succeeds with the uppercased input
as base and no suffix. -/
theorem C4_plain_callsign (s : List Char) (h0 : s ≠ [])
    (h1 : ∀ c ∈ s, isAsciiAlphanumeric c = true) (_h2 : '/' ∉ s)
    (h3 : 3 ≤ s.length) (h4 : s.length ≤ 10) :
    parse_callsign s = .ok ⟨s.map toAsciiUppercase, none⟩ := by
  have hv : ∀ c ∈ s, validChar c = true := fun c hc =>
    validChar_of_alnum c (h1 c hc)
  have htrim : rustTrim s = s :=
    rustTrim_eq_self s fun c hc => validChar_not_ws c (hv c hc)
  simp only [parse_callsign, htrim]
  rw [if_neg (by simpa [List.isEmpty_iff] using h0)]
  rw [scanBase_ok_of_valid s s 0 [] hv]
  simp only [List.nil_append]
  rw [if_neg (by simpa [List.isEmpty_iff, List.map_eq_nil_iff] using h0)]
  rw [if_pos (by simpa using And.intro h3 h4)]

/-- C4 witness: the concrete input `"w1aw"` satisfies the hypotheses and
parses to base `"W1AW"` with no suffix. -/
theorem C4_witness :
    parse_callsign "w1aw".toList = .ok ⟨"W1AW".toList, none⟩ := by
  have := C4_plain_callsign "w1aw".toList (by decide) (by decide)
    (by decide) (by decide) (by decide)
  simpa using this

/-- If the scanned string ends at its first `/` (nothing after it) and
the base loop succeeds, the returned suffix is `none`. -/
theorem scanBase_trailing_slash (input bs : List Char) (i : Nat)
    (base b : List Char) (sfx : Option (List Char)) (hns : '/' ∉ bs)
    (h : scanBase input (bs ++ ['/']) i base = .ok (b, sfx)) :
    sfx = none := by
  induction bs generalizing i base with
  | nil =>
    simp only [List.nil_append, scanBase, scanSuffix] at h
    simp only [List.isEmpty_nil, if_true, Except.ok.injEq,
      Prod.mk.injEq] at h
    exact h.2.symm
  | cons c t ih =>
    have hcs : c ≠ '/' := fun he => hns (by simp [he])
    have hts : '/' ∉ t := fun hm => hns (by simp [hm])
    simp only [List.cons_append, scanBase] at h
    rw [if_neg hcs] at h
    by_cases hv : isAsciiAlphanumeric (toAsciiUppercase c) = true
    · rw [if_pos hv] at h
      exact ih _ _ hts (by simpa using h)
    · rw [if_neg hv] at h
      cases h

/-- C5: when the trimmed input ends at its first `/` (the remainder
after it is empty) and parsing succeeds, the parsed suffix is absent,
not an empty string. -/
theorem C5_trailing_slash_suffix_none (s bs : List Char)
    (p : ParsedCallsign) (h1 : rustTrim s = bs ++ ['/'])
    (h2 : '/' ∉ bs) (h3 : parse_callsign s = .ok p) : p.suffix = none := by
  simp only [parse_callsign, h1] at h3
  rw [if_neg (by simp)] at h3
  cases hsb : scanBase s (bs ++ ['/']) 0 [] with
  | error e =>
    rw [hsb] at h3
    cases h3
  | ok pr =>
    obtain ⟨base, sfx⟩ := pr
    rw [hsb] at h3
    dsimp only at h3
    have hn : sfx = none := scanBase_trailing_slash s bs 0 [] base sfx h2 hsb
    by_cases hbe : base.isEmpty
    · simp [hbe] at h3
    · by_cases hlen : 3 ≤ base.length ∧ base.length ≤ 10
      · rw [if_neg hbe, if_pos hlen, Except.ok.injEq] at h3
        rw [← h3, hn]
      · rw [if_neg hbe, if_neg hlen] at h3
        cases h3

/-- C5 witness: `parse("w1aw/")` gives base `"W1AW"` with suffix `none`,
and the general theorem applies to it. -/
theorem C5_witness :
    parse_callsign "w1aw/".toList = .ok ⟨"W1AW".toList, none⟩ ∧
      (⟨"W1AW".toList, none⟩ : ParsedCallsign).suffix = none := by
  have hp : parse_callsign "w1aw/".toList = .ok ⟨"W1AW".toList, none⟩ := by
    decide
  exact ⟨hp, C5_trailing_slash_suffix_none "w1aw/".toList "w1aw".toList
    ⟨"W1AW".toList, none⟩ (by decide) (by decide) hp⟩

/-- C6: `parse_callsign` returns the `Empty` error when the input trims
to nothing, and also when the trimmed input starts with `/` (so the base
accumulates to empty) and the suffix region scans without an invalid
character — for example on the input `"/"`. -/
theorem C6_empty_error (s : List Char) (rest : List Char) :
    (rustTrim s = [] → parse_callsign s = .error .Empty) ∧
      (rustTrim s = '/' :: rest → (∀ c ∈ rest, validChar c = true) →
        parse_callsign s = .error .Empty) := by
  constructor
  · intro h
    simp [parse_callsign, h]
  · intro h hrest
    simp only [parse_callsign, h]
    rw [if_neg (by simp)]
    have hsb : scanBase s ('/' :: rest) 0 [] =
        .ok ([], if (rest.map toAsciiUppercase).isEmpty then none
          else some (rest.map toAsciiUppercase)) := by
      have := scanBase_slash s [] rest 0 [] (by simp)
      simp only [List.nil_append, List.length_nil, Nat.add_zero] at this
      rw [this, scanSuffix_ok_of_valid s 0 rest 0 [] hrest]
      simp
    rw [hsb]
    simp

/-- C6 witness: the empty input, a whitespace-only input and the input
`"/"` all produce the `Empty` error through the theorem. -/
theorem C6_witness :
    parse_callsign [] = .error .Empty ∧
      parse_callsign "   ".toList = .error .Empty ∧
      parse_callsign "/".toList = .error .Empty := by
  refine ⟨(C6_empty_error [] []).1 (by decide),
    (C6_empty_error "   ".toList []).1 (by decide),
    (C6_empty_error "/".toList []).2 (by decide) (by decide)⟩

/-- C7: an invalid character is reported with its scan position in the
trimmed string: before the first `/` the index is the length of the
valid prefix; in the suffix region, an invalid character at offset `j`
after a `/` at position `i` is reported at index `i + 1 + j`. -/
theorem C7_invalid_char_index (s : List Char) :
    (∀ pre c rest, rustTrim s = pre ++ c :: rest →
      (∀ b ∈ pre, validChar b = true) → validChar c = false → c ≠ '/' →
      parse_callsign s = .error (.InvalidChar s c pre.length)) ∧
      (∀ bs sp c rest, rustTrim s = bs ++ '/' :: (sp ++ c :: rest) →
        (∀ b ∈ bs, validChar b = true) → (∀ b ∈ sp, validChar b = true) →
        validChar c = false →
        parse_callsign s =
          .error (.InvalidChar s c (bs.length + 1 + sp.length))) := by
  constructor
  · intro pre c rest ht hpre hc hcs
    simp only [parse_callsign, ht]
    rw [if_neg (by simp)]
    rw [scanBase_error_at s pre c rest 0 [] hpre hc hcs]
    simp
  · intro bs sp c rest ht hbs hsp hc
    simp only [parse_callsign, ht]
    rw [if_neg (by simp)]
    rw [scanBase_slash s bs (sp ++ c :: rest) 0 [] hbs]
    rw [scanSuffix_error_at s (0 + bs.length) sp c rest 0 [] hsp hc]
    have harith : 0 + bs.length + 0 + sp.length + 1 =
        bs.length + 1 + sp.length := by omega
    rw [harith]

/-- C7 witness: `parse("w1-aw")` reports `'-'` at index 2 (base region),
and `parse("w1aw/a-b")` reports `'-'` at index 6 (suffix region,
`/` at index 4 plus 1 plus offset 1). -/
theorem C7_witness :
    parse_callsign "w1-aw".toList =
        .error (.InvalidChar "w1-aw".toList '-' 2) ∧
      parse_callsign "w1aw/a-b".toList =
        .error (.InvalidChar "w1aw/a-b".toList '-' 6) := by
  constructor
  · have := (C7_invalid_char_index "w1-aw".toList).1 "w1".toList '-'
      "aw".toList (by decide) (by decide) (by decide) (by decide)
    simpa using this
  · have := (C7_invalid_char_index "w1aw/a-b".toList).2 "w1aw".toList
      "a".toList '-' "b".toList (by decide) (by decide) (by decide)
      (by decide)
    simpa using this

/-- C8: when every scanned character is valid but the base (the part
before any `/`, after trimming) has length outside `[3, 10]`,
`parse_callsign` returns `InvalidLength` carrying the base's length —
the bound is checked on the base alone, after the suffix is split
off. -/
theorem C8_invalid_length (s bcs rest : List Char)
    (h1 : rustTrim s = bcs ++ rest)
    (h2 : ∀ c ∈ bcs, validChar c = true)
    (h3 : rest = [] ∨ ∃ sfx, rest = '/' :: sfx ∧
      ∀ c ∈ sfx, validChar c = true)
    (h4 : bcs ≠ []) (h5 : ¬(3 ≤ bcs.length ∧ bcs.length ≤ 10)) :
    parse_callsign s = .error (.InvalidLength s bcs.length) := by
  simp only [parse_callsign, h1]
  rw [if_neg (by simp [List.isEmpty_iff, h4])]
  have hbne : ¬(bcs.map toAsciiUppercase).isEmpty := by
    simp [List.isEmpty_iff, List.map_eq_nil_iff, h4]
  have hlen : ¬(3 ≤ (bcs.map toAsciiUppercase).length ∧
      (bcs.map toAsciiUppercase).length ≤ 10) := by
    simpa using h5
  rcases h3 with h3 | ⟨sfx, hrest, hsfx⟩
  · subst h3
    rw [List.append_nil]
    rw [scanBase_ok_of_valid s bcs 0 [] h2]
    dsimp only [List.nil_append]
    rw [if_neg hbne, if_neg hlen]
    simp
  · subst hrest
    rw [scanBase_slash s bcs sfx 0 [] h2]
    rw [scanSuffix_ok_of_valid s (0 + bcs.length) sfx 0 [] hsfx]
    dsimp only [List.nil_append]
    rw [if_neg hbne, if_neg hlen]
    simp

/-- C8 witness: `parse("ab")` fails with length 2, and `parse("ab/cde")`
also fails with length 2 even though the whole input is longer — the
bound applies to the base alone. -/
theorem C8_witness :
    parse_callsign "ab".toList =
        .error (.InvalidLength "ab".toList 2) ∧
      parse_callsign "ab/cde".toList =
        .error (.InvalidLength "ab/cde".toList 2) := by
  constructor
  · have := C8_invalid_length "ab".toList "ab".toList [] (by decide)
      (by decide) (Or.inl rfl) (by decide) (by decide)
    simpa using this
  · have := C8_invalid_length "ab/cde".toList "ab".toList
      ('/' :: "cde".toList) (by decide) (by decide)
      (Or.inr ⟨"cde".toList, rfl, by decide⟩) (by decide) (by decide)
    simpa using this

/-- C10: when the scan of the trimmed string reaches a `/` at character
position `i` with every earlier character valid, the byte offset of that
`/` equals `i` (all earlier characters are one-byte ASCII), and `i + 1`
is a character boundary of the trimmed string — so the Rust byte slice
`&trimmed[i + 1..]` cannot panic. -/
theorem C10_slice_boundary (s pre rest : List Char)
    (h1 : rustTrim s = pre ++ '/' :: rest)
    (h2 : ∀ c ∈ pre, validChar c = true) :
    byteOffset (rustTrim s) pre.length = pre.length ∧
      IsCharBoundary (rustTrim s) (pre.length + 1) := by
  have hone : ∀ c ∈ pre, lenUtf8 c = 1 := fun c hc =>
    validChar_lenUtf8 c (h2 c hc)
  have htake : (rustTrim s).take pre.length = pre := by
    rw [h1, List.take_left]
  have hoff : byteOffset (rustTrim s) pre.length = pre.length := by
    unfold byteOffset
    rw [htake]
    calc (pre.map lenUtf8).sum = (pre.map fun _ => 1).sum := by
          congr 1
          exact List.map_congr_left hone
      _ = pre.length := by simp [List.map_const]
  refine ⟨hoff, pre.length + 1, ?_, ?_⟩
  · rw [h1]
    simp
  · unfold byteOffset
    rw [h1, List.take_append_eq_append_take]
    have e1 : List.take (pre.length + 1) pre = pre := by
      apply List.take_of_length_le
      omega
    have e2 : pre.length + 1 - pre.length = 1 := by omega
    have e3 : List.take 1 ('/' :: rest) = ['/'] := by
      simp [List.take_succ_cons]
    rw [e1, e2, e3]
    simp only [List.map_append, List.sum_append]
    have e4 : (pre.map lenUtf8).sum = pre.length := by
      calc (pre.map lenUtf8).sum = (pre.map fun _ => 1).sum := by
            congr 1
            exact List.map_congr_left hone
        _ = pre.length := by simp [List.map_const]
    have e5 : lenUtf8 '/' = 1 := by decide
    rw [e4]
    simp [e5]

/-- C10 witness: on `"w1aw/ae"` the `/` sits at character position 4,
its byte offset is 4, and byte offset 5 is a character boundary. -/
theorem C10_witness :
    byteOffset (rustTrim "w1aw/ae".toList) 4 = 4 ∧
      IsCharBoundary (rustTrim "w1aw/ae".toList) 5 := by
  have := C10_slice_boundary "w1aw/ae".toList "w1aw".toList "ae".toList
    (by decide) (by decide)
  simpa using this

/-- A concrete coerced payload object, used to instantiate theorems at
concrete envelopes. -/
def samplePayload : CallsignLookup :=
  ⟨"KD9XYZ".toList, "T".toList, none, none, "EN50".toList, none, none,
    none, none, "SAMPLE RECORD".toList, none, none, none, none, none,
    "United States".toList⟩

/-- C2: on any response envelope decoding to the `NotFound` status,
`lookup` returns `Error::NotFound` carrying the parsed (validated,
uppercased) base callsign, whatever the embedded callsign payload
holds. -/
theorem C2_not_found_carries_base (input : List Char)
    (response : RawEnvelope) (p : ParsedCallsign)
    (h1 : parse_callsign input = .ok p)
    (h2 : response.statusText = "NOT_FOUND".toList) :
    lookup input response = .error (.NotFound p.base) := by
  unfold lookup
  rw [h1]
  unfold decodeApiResponse
  rw [h2]
  have hd : Status.deserializeField "NOT_FOUND".toList = .ok .NotFound := by
    decide
  rw [hd]
  simp

/-- C2 witness: a `NOT_FOUND` envelope for the raw input `"w9zzz9"`
yields `NotFound("W9ZZZ9")` — the validated base, not the raw input —
with an arbitrary concrete payload embedded. -/
theorem C2_witness :
    lookup "w9zzz9".toList ⟨"NOT_FOUND".toList, samplePayload⟩ =
      .error (.NotFound "W9ZZZ9".toList) := by
  have hp : parse_callsign "w9zzz9".toList =
      .ok ⟨"W9ZZZ9".toList, none⟩ := by decide
  have := C2_not_found_carries_base "w9zzz9".toList
    ⟨"NOT_FOUND".toList, samplePayload⟩ ⟨"W9ZZZ9".toList, none⟩ hp rfl
  simpa using this

/-- C1 (failing input): an envelope whose `messages.status` string is
`"PENDING"` — well-formed except for being an unrecognized status — is
rejected by the serde-derived `Status` deserializer, so `lookup` returns
the decode-failure error `Error::BodyParsing`, contrary to the claim
that an unrecognized status value must not cause a decode failure. -/
theorem C1_unknown_status_fails_decode :
    Status.deserializeField "PENDING".toList =
        .error (.unknownVariant "PENDING".toList) ∧
      lookup "w1aw".toList ⟨"PENDING".toList, samplePayload⟩ =
        .error .BodyParsing := by
  exact ⟨by decide, by decide⟩

/-- C9: the bounded-coordinate helper trims its input, gives `none` on an
empty trimmed string, on a parse failure, and on an out-of-interval
value; it returns `some v` exactly when the trimmed string is non-empty
and parses to `v` with `min ≤ v ≤ max`; the latitude instance therefore
only produces values in `[-90, 90]` and the longitude instance only
values in `[-180, 180]`.  (Stated for every parse function
`parseF64`.) -/
theorem C9_bounded_coordinate (parseF64 : List Char → Option ℚ)
    (s : List Char) (mn mx v : ℚ) :
    (rustTrim s = [] → lat_lon_string_as_f64 parseF64 s mn mx = none) ∧
      (parseF64 (rustTrim s) = none →
        lat_lon_string_as_f64 parseF64 s mn mx = none) ∧
      (parseF64 (rustTrim s) = some v → ¬(mn ≤ v ∧ v ≤ mx) →
        lat_lon_string_as_f64 parseF64 s mn mx = none) ∧
      (rustTrim s ≠ [] → parseF64 (rustTrim s) = some v →
        mn ≤ v → v ≤ mx →
        lat_lon_string_as_f64 parseF64 s mn mx = some v) ∧
      (lat_lon_string_as_f64 parseF64 s mn mx = some v →
        parseF64 (rustTrim s) = some v ∧ mn ≤ v ∧ v ≤ mx) ∧
      (latitude_as_f64 parseF64 s = some v → -90 ≤ v ∧ v ≤ 90) ∧
      (longitude_as_f64 parseF64 s = some v → -180 ≤ v ∧ v ≤ 180) := by
  have key : ∀ mn' mx' v' : ℚ,
      lat_lon_string_as_f64 parseF64 s mn' mx' = some v' →
        parseF64 (rustTrim s) = some v' ∧ mn' ≤ v' ∧ v' ≤ mx' := by
    intro mn' mx' v' h
    unfold lat_lon_string_as_f64 at h
    by_cases he : (rustTrim s).isEmpty
    · simp [he] at h
    · rw [if_neg he] at h
      cases hp : parseF64 (rustTrim s) with
      | none =>
        rw [hp] at h
        cases h
      | some w =>
        rw [hp] at h
        dsimp only at h
        by_cases hb : mn' ≤ w ∧ w ≤ mx'
        · rw [if_pos hb, Option.some.injEq] at h
          subst h
          exact ⟨rfl, hb⟩
        · rw [if_neg hb] at h
          cases h
  refine ⟨?_, ?_, ?_, ?_, key mn mx v, ?_, ?_⟩
  · intro h
    simp [lat_lon_string_as_f64, h]
  · intro h
    unfold lat_lon_string_as_f64
    by_cases he : (rustTrim s).isEmpty
    · simp [he]
    · simp [he, h]
  · intro hp hb
    unfold lat_lon_string_as_f64
    by_cases he : (rustTrim s).isEmpty
    · simp [he]
    · simp [he, hp, hb]
  · intro hne hp hlo hhi
    unfold lat_lon_string_as_f64
    rw [if_neg (by simpa [List.isEmpty_iff] using hne), hp]
    dsimp only
    rw [if_pos ⟨hlo, hhi⟩]
  · intro h
    exact (key (-90) 90 v h).2
  · intro h
    exact (key (-180) 180 v h).2

/-- C9 witness: with a parse function sending `"45.0"` to `45`, the
latitude helper returns `45`, which lies in `[-90, 90]`. -/
theorem C9_witness :
    lat_lon_string_as_f64
        (fun t => if t = "45.0".toList then some 45 else none)
        "45.0".toList (-90) 90 = some 45 ∧
      (-90 : ℚ) ≤ 45 ∧ (45 : ℚ) ≤ 90 := by
  refine ⟨?_, by norm_num, by norm_num⟩
  exact (C9_bounded_coordinate
      (fun t => if t = "45.0".toList then some 45 else none)
      "45.0".toList (-90) 90 45).2.2.2.1
    (by decide) (by rfl) (by norm_num) (by norm_num)

end Hamdb

-- sanity examples mirroring the doc-tests of `src/parsing.rs`
example :
    Hamdb.parse_callsign "W1AW/AE".toList =
      .ok ⟨"W1AW".toList, some "AE".toList⟩ := by decide

example :
    Hamdb.parse_callsign "w1aw/".toList = .ok ⟨"W1AW".toList, none⟩ := by
  decide

example :
    Hamdb.parse_callsign "w1-aw".toList =
      .error (.InvalidChar "w1-aw".toList '-' 2) := by decide

example :
    Hamdb.parse_callsign "ab".toList =
      .error (.InvalidLength "ab".toList 2) := by decide

example : Hamdb.parse_callsign "   ".toList = .error .Empty := by decide

example : Hamdb.parse_callsign "/".toList = .error .Empty := by decide
